import Mathlib

/-!
Verification of the retrieval–ranking–diversification core of the
steam_recommend repository, shallowly embedded in Lean 4.

Modelling conventions: candidate scores are rationals (`ℚ`), item and user
identifiers are integers (`ℤ`).  Embedding vectors for the dynamic-fusion
component are real-valued tuples (`Fin D → ℝ`), because that component
rescales by Euclidean norms.  Cache lookups are modelled as oracle
functions into `Option`; stages that may raise are modelled in
`Except String`.
-/

/-- Cached game metadata (the dictionary returned by
`FeatureStore.get_game_metadata`), with optional fields.  `genres` and
`tags` model the value after the JSON parse that every consumer performs
(`json.loads` on a string value, falling back to `[]` on a parse error),
so they are plain string lists here.  `releaseYear` models the result of
`int(release_date.split("-")[0])`: `none` stands for an absent or an
unparseable `release_date`, which every consumer treats identically. -/
structure GameMetadata where
  developer : Option String
  genres : List String
  price : Option ℚ
  releaseYear : Option ℤ
  metascore : Option ℚ
  tags : List String
deriving DecidableEq

/-- The `{}` dictionary the diversity controller substitutes when a
metadata lookup misses. -/
def emptyMetadata : GameMetadata := ⟨none, [], none, none, none, []⟩

/-- One `defaultdict(int)` update: increment the counter stored under `k`. -/
def bumpCount (counts : String → ℕ) (k : String) : String → ℕ :=
  fun x => if x = k then counts k + 1 else counts x

/-- Loop of `BusinessFilter._filter_by_developer_diversity`: greedy
left-to-right scan; an item without metadata is admitted unconditionally,
otherwise it is admitted while the running count of its developer
(default `"Unknown"` when the field is missing) is below
`maxSameDeveloper`, and admission increments that count. -/
def filterDevGo (meta : ℤ → Option GameMetadata) (maxSameDeveloper : ℕ)
    (counts : String → ℕ) : List (ℤ × ℚ) → List (ℤ × ℚ)
  | [] => []
  | p :: rest =>
    match meta p.1 with
    | none => p :: filterDevGo meta maxSameDeveloper counts rest
    | some m =>
      if counts (m.developer.getD "Unknown") < maxSameDeveloper then
        p :: filterDevGo meta maxSameDeveloper
          (bumpCount counts (m.developer.getD "Unknown")) rest
      else
        filterDevGo meta maxSameDeveloper counts rest

/-- `BusinessFilter._filter_by_developer_diversity`, starting from fresh
counters. -/
def filterByDeveloperDiversity (meta : ℤ → Option GameMetadata)
    (maxSameDeveloper : ℕ) (candidates : List (ℤ × ℚ)) : List (ℤ × ℚ) :=
  filterDevGo meta maxSameDeveloper (fun _ => 0) candidates

/-- Counter update of one admitted item in the genre filter:
`for genre in genres: genre_counts[genre] += 1` (one increment per
occurrence). -/
def bumpGenres (counts : String → ℕ) (genres : List String) : String → ℕ :=
  genres.foldl bumpCount counts

/-- Loop of `BusinessFilter._filter_by_genre_diversity`: an item without
metadata is admitted unconditionally; an item with metadata is admitted
only if every one of its genres is still below `maxSameGenre`, and
admission increments all its genre counters. -/
def filterGenreGo (meta : ℤ → Option GameMetadata) (maxSameGenre : ℕ)
    (counts : String → ℕ) : List (ℤ × ℚ) → List (ℤ × ℚ)
  | [] => []
  | p :: rest =>
    match meta p.1 with
    | none => p :: filterGenreGo meta maxSameGenre counts rest
    | some m =>
      if m.genres.all (fun g => counts g < maxSameGenre) then
        p :: filterGenreGo meta maxSameGenre (bumpGenres counts m.genres) rest
      else
        filterGenreGo meta maxSameGenre counts rest

/-- `BusinessFilter._filter_by_genre_diversity`, starting from fresh
counters. -/
def filterByGenreDiversity (meta : ℤ → Option GameMetadata)
    (maxSameGenre : ℕ) (candidates : List (ℤ × ℚ)) : List (ℤ × ℚ) :=
  filterGenreGo meta maxSameGenre (fun _ => 0) candidates

/-- Configured cap `settings.MAX_SAME_DEVELOPER`. -/
def maxSameDeveloperDefault : ℕ := 2

/-- Configured cap `settings.MAX_SAME_GENRE`. -/
def maxSameGenreDefault : ℕ := 3

/-- Number of candidates in `l` whose metadata resolves and whose
developer field (default `"Unknown"`) equals `d`. -/
def countDeveloper (meta : ℤ → Option GameMetadata) (d : String)
    (l : List (ℤ × ℚ)) : ℕ :=
  l.countP (fun p => match meta p.1 with
    | some m => decide (m.developer.getD "Unknown" = d)
    | none => false)

/-- Number of candidates in `l` whose metadata resolves and whose genre
list carries `g`. -/
def countGenre (meta : ℤ → Option GameMetadata) (g : String)
    (l : List (ℤ × ℚ)) : ℕ :=
  l.countP (fun p => match meta p.1 with
    | some m => decide (g ∈ m.genres)
    | none => false)

/-- Number of occurrences of the candidate pair `p` in `l`. -/
def countPair (p : ℤ × ℚ) (l : List (ℤ × ℚ)) : ℕ :=
  l.countP (fun q => decide (q = p))

theorem bumpCount_apply_self (counts : String → ℕ) (k : String) :
    bumpCount counts k k = counts k + 1 := by
  simp [bumpCount]

theorem bumpCount_apply_ne (counts : String → ℕ) {k x : String} (h : x ≠ k) :
    bumpCount counts k x = counts x := by
  simp [bumpCount, h]

theorem le_bumpCount (counts : String → ℕ) (k x : String) :
    counts x ≤ bumpCount counts k x := by
  by_cases h : x = k
  · subst h; simp [bumpCount]
  · simp [bumpCount, h]

theorem le_bumpGenres (counts : String → ℕ) (gs : List String) (x : String) :
    counts x ≤ bumpGenres counts gs x := by
  induction gs generalizing counts with
  | nil => simp [bumpGenres]
  | cons a t ih =>
    calc counts x ≤ bumpCount counts a x := le_bumpCount counts a x
    _ ≤ bumpGenres (bumpCount counts a) t x := ih (bumpCount counts a)
    _ = bumpGenres counts (a :: t) x := by simp [bumpGenres, List.foldl_cons]

theorem bumpGenres_of_not_mem (counts : String → ℕ) {gs : List String}
    {x : String} (h : x ∉ gs) : bumpGenres counts gs x = counts x := by
  induction gs generalizing counts with
  | nil => simp [bumpGenres]
  | cons a t ih =>
    have hx : x ≠ a := fun hxa => h (hxa ▸ List.mem_cons_self a t)
    have ht : x ∉ t := fun hxt => h (List.mem_cons_of_mem a hxt)
    calc bumpGenres counts (a :: t) x
        = bumpGenres (bumpCount counts a) t x := by
          simp [bumpGenres, List.foldl_cons]
    _ = bumpCount counts a x := ih (bumpCount counts a) ht
    _ = counts x := bumpCount_apply_ne counts hx

theorem bumpGenres_succ_le (counts : String → ℕ) {gs : List String}
    {x : String} (h : x ∈ gs) : counts x + 1 ≤ bumpGenres counts gs x := by
  induction gs generalizing counts with
  | nil => cases h
  | cons a t ih =>
    have hstep : bumpGenres counts (a :: t) x
        = bumpGenres (bumpCount counts a) t x := by
      simp [bumpGenres, List.foldl_cons]
    by_cases hx : x = a
    · subst hx
      have : bumpCount counts x x = counts x + 1 := bumpCount_apply_self counts x
      calc counts x + 1 = bumpCount counts x x := this.symm
      _ ≤ bumpGenres (bumpCount counts x) t x := le_bumpGenres _ t x
      _ = bumpGenres counts (x :: t) x := hstep.symm
    · have ht : x ∈ t := by
        rcases List.mem_cons.mp h with h1 | h2
        · exact absurd h1 hx
        · exact h2
      calc counts x + 1 = bumpCount counts a x + 1 := by
            rw [bumpCount_apply_ne counts hx]
      _ ≤ bumpGenres (bumpCount counts a) t x := ih (bumpCount counts a) ht
      _ = bumpGenres counts (a :: t) x := hstep.symm

theorem countDeveloper_filterDevGo (meta : ℤ → Option GameMetadata)
    (maxD : ℕ) (d : String) (l : List (ℤ × ℚ)) (counts : String → ℕ) :
    countDeveloper meta d (filterDevGo meta maxD counts l) ≤ maxD - counts d := by
  induction l generalizing counts with
  | nil => simp [filterDevGo, countDeveloper]
  | cons p rest ih =>
    rcases hm : meta p.1 with _ | m
    · have := ih counts
      simpa [filterDevGo, hm, countDeveloper, List.countP_cons] using this
    · by_cases hcap : counts (m.developer.getD "Unknown") < maxD
      · by_cases hd : m.developer.getD "Unknown" = d
        · have := ih (bumpCount counts (m.developer.getD "Unknown"))
          rw [hd, bumpCount_apply_self] at this
          have hlt : counts d < maxD := hd ▸ hcap
          simp only [filterDevGo, hm, if_pos hcap, countDeveloper,
            List.countP_cons] at *
          simp [hm, hd]
          omega
        · have := ih (bumpCount counts (m.developer.getD "Unknown"))
          rw [bumpCount_apply_ne counts (fun hdd => hd hdd.symm)] at this
          simp only [filterDevGo, hm, if_pos hcap, countDeveloper,
            List.countP_cons] at *
          simp [hm, hd]
          omega
      · have := ih counts
        simpa [filterDevGo, hm, if_neg hcap, countDeveloper] using this

theorem countGenre_filterGenreGo (meta : ℤ → Option GameMetadata)
    (maxG : ℕ) (g : String) (l : List (ℤ × ℚ)) (counts : String → ℕ) :
    countGenre meta g (filterGenreGo meta maxG counts l) ≤ maxG - counts g := by
  induction l generalizing counts with
  | nil => simp [filterGenreGo, countGenre]
  | cons p rest ih =>
    rcases hm : meta p.1 with _ | m
    · have := ih counts
      simpa [filterGenreGo, hm, countGenre, List.countP_cons] using this
    · by_cases hok : m.genres.all (fun x => counts x < maxG)
      · by_cases hg : g ∈ m.genres
        · have hlt : counts g < maxG := by
            have := List.all_eq_true.mp hok g hg
            exact of_decide_eq_true this
          have hbump : counts g + 1 ≤ bumpGenres counts m.genres g :=
            bumpGenres_succ_le counts hg
          have := ih (bumpGenres counts m.genres)
          simp only [filterGenreGo, hm, if_pos hok, countGenre,
            List.countP_cons] at *
          simp [hm, hg]
          omega
        · have := ih (bumpGenres counts m.genres)
          rw [bumpGenres_of_not_mem counts hg] at this
          simp only [filterGenreGo, hm, if_pos hok, countGenre,
            List.countP_cons] at *
          simp [hm, hg]
          omega
      · have hstep := ih counts
        simp only [countGenre] at hstep ⊢
        simp only [filterGenreGo, hm, if_neg hok]
        exact hstep

theorem countPair_filterDevGo (meta : ℤ → Option GameMetadata) (maxD : ℕ)
    (p : ℤ × ℚ) (hp : meta p.1 = none) (l : List (ℤ × ℚ))
    (counts : String → ℕ) :
    countPair p (filterDevGo meta maxD counts l) = countPair p l := by
  induction l generalizing counts with
  | nil => simp [filterDevGo]
  | cons q rest ih =>
    rcases hm : meta q.1 with _ | m
    · have hstep := ih counts
      simp only [countPair] at hstep ⊢
      simp only [filterDevGo, hm, List.countP_cons, hstep]
    · by_cases hcap : counts (m.developer.getD "Unknown") < maxD
      · have hqp : ¬ (q = p) := fun h => by
          rw [h, hp] at hm; cases hm
        simp only [filterDevGo, hm, if_pos hcap, countPair,
          List.countP_cons] at *
        simp [hqp, ih (bumpCount counts (m.developer.getD "Unknown"))]
      · have hqp : ¬ (q = p) := fun h => by
          rw [h, hp] at hm; cases hm
        simp only [filterDevGo, hm, if_neg hcap, countPair,
          List.countP_cons] at *
        simp [hqp, ih counts]

theorem countPair_filterGenreGo (meta : ℤ → Option GameMetadata) (maxG : ℕ)
    (p : ℤ × ℚ) (hp : meta p.1 = none) (l : List (ℤ × ℚ))
    (counts : String → ℕ) :
    countPair p (filterGenreGo meta maxG counts l) = countPair p l := by
  induction l generalizing counts with
  | nil => simp [filterGenreGo]
  | cons q rest ih =>
    rcases hm : meta q.1 with _ | m
    · have hstep := ih counts
      simp only [countPair] at hstep ⊢
      simp only [filterGenreGo, hm, List.countP_cons, hstep]
    · have hqp : ¬ (q = p) := fun h => by
        rw [h, hp] at hm; cases hm
      by_cases hok : m.genres.all (fun x => counts x < maxG)
      · have hstep := ih (bumpGenres counts m.genres)
        simp only [countPair] at hstep ⊢
        simp only [filterGenreGo, hm, if_pos hok, List.countP_cons, hstep,
          hqp]
      · have hstep := ih counts
        simp only [countPair] at hstep ⊢
        simp only [filterGenreGo, hm, if_neg hok, hstep, List.countP_cons,
          hqp]
        simp

/-- C2: after the developer-cap stage at most `maxSameDeveloper` admitted
items share any one developer, and after the genre-cap stage, for every
genre, at most `maxSameGenre` admitted items carry that genre — counting
only items whose metadata resolves; items without metadata are always
admitted (their multiplicity is preserved) and exempt from both caps. -/
theorem business_filter_caps (meta : ℤ → Option GameMetadata)
    (maxD maxG : ℕ) (cands : List (ℤ × ℚ)) (d g : String) (p : ℤ × ℚ)
    (hp : meta p.1 = none) :
    countDeveloper meta d (filterByDeveloperDiversity meta maxD cands) ≤ maxD ∧
    countGenre meta g (filterByGenreDiversity meta maxG cands) ≤ maxG ∧
    countPair p (filterByDeveloperDiversity meta maxD cands) = countPair p cands ∧
    countPair p (filterByGenreDiversity meta maxG cands) = countPair p cands := by
  refine ⟨?_, ?_, ?_, ?_⟩
  · simpa [filterByDeveloperDiversity] using
      countDeveloper_filterDevGo meta maxD d cands (fun _ => 0)
  · simpa [filterByGenreDiversity] using
      countGenre_filterGenreGo meta maxG g cands (fun _ => 0)
  · exact countPair_filterDevGo meta maxD p hp cands (fun _ => 0)
  · exact countPair_filterGenreGo meta maxG p hp cands (fun _ => 0)

/-- Concrete metadata oracle for the C2 witness: items 1, 2, 3 share a
developer and a genre, item 4 has no metadata. -/
def wMeta2 : ℤ → Option GameMetadata := fun i =>
  if i = 4 then none
  else if i ≤ 3 then some ⟨some "Valve", ["RPG"], some 10, some 2020, some 80, []⟩
  else none

/-- Concrete candidate list for the C2 witness. -/
def wCands2 : List (ℤ × ℚ) := [(1, 1), (2, 9/10), (3, 8/10), (4, 7/10)]

theorem business_filter_caps_witness :
    countDeveloper wMeta2 "Valve"
      (filterByDeveloperDiversity wMeta2 maxSameDeveloperDefault wCands2) ≤
        maxSameDeveloperDefault ∧
    countGenre wMeta2 "RPG"
      (filterByGenreDiversity wMeta2 maxSameGenreDefault wCands2) ≤
        maxSameGenreDefault ∧
    countPair (4, 7/10)
      (filterByDeveloperDiversity wMeta2 maxSameDeveloperDefault wCands2) =
        countPair (4, 7/10) wCands2 ∧
    countPair (4, 7/10)
      (filterByGenreDiversity wMeta2 maxSameGenreDefault wCands2) =
        countPair (4, 7/10) wCands2 :=
  business_filter_caps wMeta2 maxSameDeveloperDefault maxSameGenreDefault
    wCands2 "Valve" "RPG" (4, 7/10) (by decide)

/-- Configured IVF cluster count `self.nlist = 100` of `FaissIndexManager`. -/
def configuredNlist : ℕ := 100

/-- Cluster count chosen by `FaissIndexManager._create_index` for the IVF
variant: `nlist = min(self.nlist, num_vectors // 10)` then
`nlist = max(nlist, 1)`. -/
def createIndexNlist (nlistConfigured numVectors : ℕ) : ℕ :=
  max (min nlistConfigured (numVectors / 10)) 1

/-- Observable outcome of `FaissIndexManager.build_index`: whether the
build succeeded, the IVF cluster count used for training (`none` for the
non-IVF variants or a failed build), and the number of vectors added. -/
structure BuildOutcome where
  success : Bool
  nlistUsed : Option ℕ
  numVectors : ℕ
deriving DecidableEq

/-- The embedding parse loop of `build_index`: each Redis hash entry
either parses to a vector (`some v`: unpickles to an ndarray) or is
skipped (`none`: unpickling fails or the value is not an ndarray).  The
subsequent L2 normalization of each kept vector (divide by its norm when
positive) changes no vector count and is omitted from this outcome
model. -/
def validEmbeddings (entries : List (ℤ × Option (List ℚ))) :
    List (ℤ × List ℚ) :=
  entries.filterMap (fun p => p.2.map (fun v => (p.1, v)))

/-- `FaissIndexManager.build_index` on a fresh manager: fails (returning
`False`, not raising) when the Redis hash is empty or no entry parses;
otherwise creates the index — for the IVF variant with the clamped
cluster count — and succeeds. -/
def buildIndex (entries : List (ℤ × Option (List ℚ))) (indexType : String)
    (nlistConfigured : ℕ) : BuildOutcome :=
  if entries = [] then ⟨false, none, 0⟩
  else if validEmbeddings entries = [] then ⟨false, none, 0⟩
  else
    ⟨true,
     if indexType = "IVF" then
       some (createIndexNlist nlistConfigured (validEmbeddings entries).length)
     else none,
     (validEmbeddings entries).length⟩

/-- Embedding set with exactly 3 valid vectors for the C8 scenario. -/
def wEntries8 : List (ℤ × Option (List ℚ)) :=
  [(1, some [1, 0]), (2, some [0, 1]), (3, some [1, 1])]

/-- C8: building the IVF index over N valid vectors trains with cluster
count `min(configured_nlist, N/10)` floored at 1; in particular a build
over 3 vectors with the default configured count 100 uses exactly 1
cluster and succeeds. -/
theorem ivf_nlist_clamped (entries : List (ℤ × Option (List ℚ))) :
    (buildIndex entries "IVF" configuredNlist).nlistUsed =
      (if validEmbeddings entries = [] then none
       else some (max (min configuredNlist
         ((validEmbeddings entries).length / 10)) 1)) ∧
    buildIndex wEntries8 "IVF" configuredNlist =
      ⟨true, some (max (min configuredNlist (3 / 10)) 1), 3⟩ ∧
    buildIndex wEntries8 "IVF" configuredNlist = ⟨true, some 1, 3⟩ := by
  refine ⟨?_, by decide, by decide⟩
  by_cases he : entries = []
  · subst he
    simp [buildIndex, validEmbeddings]
  · by_cases hv : validEmbeddings entries = []
    · simp [buildIndex, he, hv]
    · simp [buildIndex, he, hv, createIndexNlist]

/-- Ranking weight vector of `RuleBasedRanker` (`self.weights`). -/
structure RankingWeights where
  recallScore : ℚ
  genreMatch : ℚ
  ratingBoost : ℚ
deriving DecidableEq

/-- Default ranking weights (recall 0.5, genre 0.3, rating 0.2). -/
def defaultRankingWeights : RankingWeights := ⟨1/2, 3/10, 1/5⟩

/-- `RuleBasedRanker._calculate_rating_score`: `if not metascore` is falsy
for both a missing key and a zero rating, yielding the neutral 0.5;
otherwise the score is `min(metascore / 100, 1.0)`. -/
def ratingScore (m : GameMetadata) : ℚ :=
  match m.metascore with
  | none => 1/2
  | some ms => if ms = 0 then 1/2 else min (ms / 100) 1

/-- `RuleBasedRanker._calculate_genre_match_score`: 0 when either genre
set is empty, else the Jaccard overlap of the two genre sets capped at
1. -/
def genreMatchScore (m : GameMetadata) (favoriteGenres : List String) : ℚ :=
  if m.genres = [] ∨ favoriteGenres = [] then 0
  else
    min (((m.genres.toFinset ∩ favoriteGenres.toFinset).card : ℚ) /
         ((m.genres.toFinset ∪ favoriteGenres.toFinset).card : ℚ)) 1

/-- The year `RuleBasedRanker._apply_time_decay` hardcodes as
`current_year = 2023`. -/
def currentYear : ℤ := 2023

/-- Per-year decay base `self.time_decay_factor = 0.95`. -/
def timeDecayFactor : ℚ := 95/100

/-- `RuleBasedRanker._apply_time_decay`: a score is multiplied by
`max(0.95 ** (current_year - release_year), 0.7)` when the release year
parses; with no metadata, or an absent or unparseable release date, the
score passes through unchanged. -/
def applyTimeDecay (score : ℚ) (meta : Option GameMetadata) : ℚ :=
  match meta with
  | none => score
  | some m =>
    match m.releaseYear with
    | none => score
    | some y => score * max (timeDecayFactor ^ (currentYear - y)) (7/10)

/-- Composite score of one candidate with resolved metadata in
`RuleBasedRanker.rank`:
`recall_score * w_recall + genre_score * w_genre + rating_score * w_rating`. -/
def compositeScore (m : GameMetadata) (recallScore : ℚ)
    (w : RankingWeights) (favoriteGenres : List String) : ℚ :=
  recallScore * w.recallScore +
    genreMatchScore m favoriteGenres * w.genreMatch +
    ratingScore m * w.ratingBoost

/-- Per-candidate scoring step of `RuleBasedRanker.rank`: with no
metadata the final score is the recall score; otherwise it is the
composite score; in both cases `_apply_time_decay` is then applied. -/
def scoreCandidate (meta : Option GameMetadata) (recallScore : ℚ)
    (w : RankingWeights) (favoriteGenres : List String) : ℚ :=
  applyTimeDecay
    (match meta with
     | none => recallScore
     | some m => compositeScore m recallScore w favoriteGenres)
    meta

/-- C9: for a candidate whose metadata has a parseable release year the
composite score is multiplied by `max(0.95 ^ (currentYear - releaseYear),
0.7)`; an absent or unparseable release date leaves the composite
undecayed; and a candidate with no metadata at all keeps its recall score
as its final score. -/
theorem rule_ranker_time_decay (m : GameMetadata) (recallScore : ℚ)
    (w : RankingWeights) (fav : List String) :
    (∀ y, m.releaseYear = some y →
      scoreCandidate (some m) recallScore w fav =
        compositeScore m recallScore w fav *
          max (timeDecayFactor ^ (currentYear - y)) (7/10)) ∧
    (m.releaseYear = none →
      scoreCandidate (some m) recallScore w fav =
        compositeScore m recallScore w fav) ∧
    scoreCandidate none recallScore w fav = recallScore := by
  refine ⟨fun y hy => ?_, fun hy => ?_, rfl⟩
  · simp [scoreCandidate, applyTimeDecay, hy]
  · simp [scoreCandidate, applyTimeDecay, hy]

/-- Concrete metadata for the C9 witness: release year 2020. -/
def wMeta9 : GameMetadata :=
  ⟨some "Valve", ["RPG"], some 20, some 2020, some 90, []⟩

/-- Metadata identical to `wMeta9` except that its release date is
absent or unparseable. -/
def wMeta9NoDate : GameMetadata :=
  ⟨some "Valve", ["RPG"], some 20, none, none, []⟩

theorem rule_ranker_time_decay_witness :
    scoreCandidate (some wMeta9) 1 defaultRankingWeights [] =
      compositeScore wMeta9 1 defaultRankingWeights [] *
        max (timeDecayFactor ^ (currentYear - 2020)) (7/10) ∧
    scoreCandidate (some wMeta9NoDate) 1 defaultRankingWeights [] =
      compositeScore wMeta9NoDate 1 defaultRankingWeights [] ∧
    scoreCandidate none 1 defaultRankingWeights [] = 1 :=
  ⟨(rule_ranker_time_decay wMeta9 1 defaultRankingWeights []).1 2020 rfl,
   (rule_ranker_time_decay wMeta9NoDate 1 defaultRankingWeights []).2.1 rfl,
   (rule_ranker_time_decay wMeta9NoDate 1 defaultRankingWeights []).2.2⟩

/-- Python truthiness of the optional exclusion list: `None` and the
empty list are both falsy. -/
def excludeTruthy (excludeIds : Option (List ℤ)) : Bool :=
  match excludeIds with
  | none => false
  | some l => !l.isEmpty

/-- The `if exclude_ids and item_id in exclude_ids` test of
`FaissIndexManager.search`. -/
def isExcluded (excludeIds : Option (List ℤ)) (itemId : ℤ) : Bool :=
  match excludeIds with
  | none => false
  | some l => l.contains itemId

/-- Number of raw candidates requested from the underlying FAISS index:
`search_k = top_k * 2 if exclude_ids else top_k` (Python truthiness, so
an empty exclusion list behaves like `None`). -/
def searchKOf (topK : ℕ) (excludeIds : Option (List ℤ)) : ℕ :=
  if excludeTruthy excludeIds then topK * 2 else topK

/-- A ready FAISS index as the search path observes it: the
ordinal-to-item-id map `index_to_id`, and the raw `(distance, ordinal)`
rows the underlying `index.search` returns when asked for `k`
candidates.  FAISS pads with the sentinel ordinal `-1` when fewer than
`k` vectors match. -/
structure FaissIndexState where
  indexToId : ℤ → Option ℤ
  annSearch : ℕ → List (ℚ × ℤ)

/-- Result-collection loop of `FaissIndexManager.search` (carrying the
number `n` of results collected so far): a sentinel ordinal (`idx < 0`),
an ordinal missing from `index_to_id`, and an excluded item id are all
skipped; every valid hit is appended, and the loop breaks once `top_k`
results are collected. -/
def collectGo (indexToId : ℤ → Option ℤ) (excludeIds : Option (List ℤ))
    (topK : ℕ) (n : ℕ) : List (ℚ × ℤ) → List (ℤ × ℚ)
  | [] => []
  | (dist, idx) :: rest =>
    if idx < 0 then collectGo indexToId excludeIds topK n rest
    else
      match indexToId idx with
      | none => collectGo indexToId excludeIds topK n rest
      | some itemId =>
        if isExcluded excludeIds itemId then
          collectGo indexToId excludeIds topK n rest
        else
          (itemId, dist) ::
            (if topK ≤ n + 1 then []
             else collectGo indexToId excludeIds topK (n + 1) rest)

/-- `FaissIndexManager.search` on a ready index. -/
def faissSearch (st : FaissIndexState) (topK : ℕ)
    (excludeIds : Option (List ℤ)) : List (ℤ × ℚ) :=
  collectGo st.indexToId excludeIds topK 0
    (st.annSearch (searchKOf topK excludeIds))

/-- One raw row viewed through the validity checks of the collection
loop. -/
def validHit (indexToId : ℤ → Option ℤ) (excludeIds : Option (List ℤ))
    (row : ℚ × ℤ) : Option (ℤ × ℚ) :=
  if row.2 < 0 then none
  else
    match indexToId row.2 with
    | none => none
    | some itemId =>
      if isExcluded excludeIds itemId then none else some (itemId, row.1)

theorem collectGo_eq_take (indexToId : ℤ → Option ℤ)
    (excludeIds : Option (List ℤ)) (topK : ℕ) (raw : List (ℚ × ℤ)) :
    ∀ n, n < topK →
      collectGo indexToId excludeIds topK n raw =
        (raw.filterMap (validHit indexToId excludeIds)).take (topK - n) := by
  induction raw with
  | nil => intro n _; simp [collectGo]
  | cons row rest ih =>
    intro n hn
    obtain ⟨dist, idx⟩ := row
    by_cases hneg : idx < 0
    · simp [collectGo, hneg, validHit, ih n hn]
    · rcases hmap : indexToId idx with _ | itemId
      · simp [collectGo, hneg, hmap, validHit, ih n hn]
      · by_cases hexc : isExcluded excludeIds itemId
        · simp [collectGo, hneg, hmap, hexc, validHit, ih n hn]
        · by_cases hbreak : topK ≤ n + 1
          · have htop : topK - n = 1 := by omega
            simp [collectGo, hneg, hmap, hexc, validHit, hbreak, htop]
          · have hn1 : n + 1 < topK := by omega
            have htake : topK - n = (topK - (n + 1)) + 1 := by omega
            simp [collectGo, hneg, hmap, hexc, validHit, hbreak, ih (n + 1) hn1,
              htake]

/-- C5 (amended): on a ready index — with the FAISS contract that a
request for `k` rows yields at most `k` rows — `search` returns at most
`topK` pairs; every returned pair avoids the exclusion list and stems
from a non-sentinel raw ordinal that the ordinal-to-id map resolves to
that item id; and the underlying index is asked for `topK * 2` rows
exactly when a NON-EMPTY exclusion list is supplied, and for `topK`
otherwise (Python truthiness treats a supplied empty list like no
list). -/
theorem faiss_search_contract (st : FaissIndexState) (topK : ℕ)
    (excludeIds : Option (List ℤ))
    (hlen : (st.annSearch (searchKOf topK excludeIds)).length ≤
      searchKOf topK excludeIds) :
    (faissSearch st topK excludeIds).length ≤ topK ∧
    (∀ itemId score, (itemId, score) ∈ faissSearch st topK excludeIds →
      isExcluded excludeIds itemId = false ∧
      ∃ idx, 0 ≤ idx ∧ st.indexToId idx = some itemId ∧
        (score, idx) ∈ st.annSearch (searchKOf topK excludeIds)) ∧
    ((excludeIds = none ∨ excludeIds = some []) →
      searchKOf topK excludeIds = topK) ∧
    (∀ l, excludeIds = some l → l ≠ [] →
      searchKOf topK excludeIds = topK * 2) := by
  have hmain : ∀ itemId score,
      (itemId, score) ∈ faissSearch st topK excludeIds →
      isExcluded excludeIds itemId = false ∧
      ∃ idx, 0 ≤ idx ∧ st.indexToId idx = some itemId ∧
        (score, idx) ∈ st.annSearch (searchKOf topK excludeIds) := by
    intro itemId score hmem
    rcases Nat.eq_zero_or_pos topK with h0 | hpos
    · subst h0
      have : st.annSearch (searchKOf 0 excludeIds) = [] := by
        have := hlen
        rcases hsk : searchKOf 0 excludeIds with _ | k
        · rw [hsk] at this
          exact List.length_eq_zero.mp (Nat.le_zero.mp this)
        · exfalso
          simp [searchKOf] at hsk
      rw [faissSearch, this] at hmem
      simp [collectGo] at hmem
    · rw [faissSearch, collectGo_eq_take st.indexToId excludeIds topK _ 0 hpos]
        at hmem
      have hmem2 := List.mem_of_mem_take hmem
      rcases List.mem_filterMap.mp hmem2 with ⟨⟨dist, idx⟩, hraw, hvalid⟩
      by_cases hneg : idx < 0
      · simp [validHit, hneg] at hvalid
      · rcases hmap : st.indexToId idx with _ | id2
        · simp [validHit, hneg, hmap] at hvalid
        · by_cases hexc : isExcluded excludeIds id2
          · simp [validHit, hneg, hmap, hexc] at hvalid
          · simp only [validHit, hneg, if_neg hneg, hmap, if_neg hexc] at hvalid
            have hid : id2 = itemId ∧ dist = score := by
              have := hvalid
              simp at this
              exact ⟨this.1, this.2⟩
            obtain ⟨hid1, hid2⟩ := hid
            subst hid1; subst hid2
            refine ⟨by simpa using hexc, idx, by omega, hmap, hraw⟩
  refine ⟨?_, hmain, ?_, ?_⟩
  · rcases Nat.eq_zero_or_pos topK with h0 | hpos
    · subst h0
      have : st.annSearch (searchKOf 0 excludeIds) = [] := by
        have := hlen
        rcases hsk : searchKOf 0 excludeIds with _ | k
        · rw [hsk] at this
          exact List.length_eq_zero.mp (Nat.le_zero.mp this)
        · exfalso
          simp [searchKOf] at hsk
      rw [faissSearch, this]
      simp [collectGo]
    · rw [faissSearch, collectGo_eq_take st.indexToId excludeIds topK _ 0 hpos]
      have hle := List.length_take_le (topK - 0)
        ((st.annSearch (searchKOf topK excludeIds)).filterMap
          (validHit st.indexToId excludeIds))
      omega
  · rintro (h | h) <;> subst h <;> simp [searchKOf, excludeTruthy]
  · rintro l rfl hl
    simp [searchKOf, excludeTruthy, List.isEmpty_iff, hl]

/-- Ready index for the C5 witness: ordinal 0 maps to the excluded item
5, ordinal 1 to item 7, ordinal 3 is missing from the map; the raw rows
contain one sentinel `-1` ordinal. -/
def wIndex5 : FaissIndexState :=
  ⟨fun idx => if idx = 0 then some 5 else if idx = 1 then some 7 else none,
   fun _ => [(1, -1), (9/10, 0), (8/10, 3), (7/10, 1)]⟩

theorem faiss_search_contract_witness :
    (faissSearch wIndex5 2 (some [5])).length ≤ 2 ∧
    (∀ itemId score, (itemId, score) ∈ faissSearch wIndex5 2 (some [5]) →
      isExcluded (some [5]) itemId = false ∧
      ∃ idx, 0 ≤ idx ∧ wIndex5.indexToId idx = some itemId ∧
        (score, idx) ∈ wIndex5.annSearch (searchKOf 2 (some [5]))) ∧
    (((some [5] : Option (List ℤ)) = none ∨
        (some [5] : Option (List ℤ)) = some []) →
      searchKOf 2 (some [5]) = 2) ∧
    (∀ l : List ℤ, (some [5] : Option (List ℤ)) = some l → l ≠ [] →
      searchKOf 2 (some [5]) = 2 * 2) :=
  faiss_search_contract wIndex5 2 (some [5]) (by decide)

/-- C5 counterexample: a supplied but EMPTY exclusion list is falsy in
Python, so the underlying index is asked for `topK` rows, not
`topK * 2`, refuting "topK*2 exactly when an exclusion list is
supplied". -/
theorem faiss_search_empty_exclusion_cex :
    searchKOf 5 (some []) = 5 ∧ searchKOf 5 (some []) ≠ 5 * 2 := by
  decide

/-- Candidate triple `(item_id, score, metadata)` after
`DiversityController._enrich_with_metadata`. -/
structure EnrichedCandidate where
  id : ℤ
  score : ℚ
  meta : GameMetadata
deriving DecidableEq

/-- Jaccard overlap of two genre sets:
`len(a & b) / len(a | b)` on Python sets. -/
def jaccardOverlap (a b : List String) : ℚ :=
  ((a.toFinset ∩ b.toFinset).card : ℚ) / ((a.toFinset ∪ b.toFinset).card : ℚ)

/-- `DiversityController._calculate_genre_diversity`: neutral 0.5 for a
candidate without genres; otherwise one minus the mean Jaccard overlap
with the already-selected items (items without genres contribute 0
overlap). -/
def genreDiversity (m : GameMetadata)
    (selected : List EnrichedCandidate) : ℚ :=
  if m.genres = [] then 1/2
  else
    1 - (if selected = [] then 0
         else (selected.map (fun s =>
            if s.meta.genres = [] then 0
            else jaccardOverlap m.genres s.meta.genres)).sum /
          (selected.length : ℚ))

/-- `DiversityController._calculate_developer_diversity`: neutral 0.5
when the candidate's developer is unknown (missing key defaults to the
empty string); 0 when any selected item has the same lower-cased
developer, else 1. -/
def developerDiversity (m : GameMetadata)
    (selected : List EnrichedCandidate) : ℚ :=
  if (m.developer.getD "").toLower = "" then 1/2
  else if selected.any (fun s =>
      decide ((s.meta.developer.getD "").toLower =
        (m.developer.getD "").toLower)) then 0
  else 1

/-- Price tier discretization of `_calculate_price_diversity`. -/
def priceTier (price : ℚ) : String :=
  if price = 0 then "free"
  else if price < 20 then "budget"
  else if price < 40 then "mid"
  else "premium"

/-- `DiversityController._calculate_price_diversity`: neutral 0.5 for a
candidate without a price; 0.3 when any selected priced item shares the
candidate's price tier, else 1. -/
def priceDiversity (m : GameMetadata)
    (selected : List EnrichedCandidate) : ℚ :=
  match m.price with
  | none => 1/2
  | some cp =>
    if selected.any (fun s =>
        match s.meta.price with
        | some sp => decide (priceTier sp = priceTier cp)
        | none => false) then 3/10
    else 1

/-- Release-era discretization of `_calculate_temporal_diversity`. -/
def eraOf (year : ℤ) : String :=
  if year ≥ 2020 then "recent"
  else if year ≥ 2015 then "modern"
  else if year ≥ 2010 then "classic"
  else "retro"

/-- `DiversityController._calculate_temporal_diversity`: neutral 0.5 for
a candidate without a parseable release year; 0.4 when any selected item
with a parseable year shares the candidate's era, else 1. -/
def temporalDiversity (m : GameMetadata)
    (selected : List EnrichedCandidate) : ℚ :=
  match m.releaseYear with
  | none => 1/2
  | some cy =>
    if selected.any (fun s =>
        match s.meta.releaseYear with
        | some sy => decide (eraOf sy = eraOf cy)
        | none => false) then 2/5
    else 1

/-- Diversity weights of `DiversityController.__init__`: genre 0.3,
developer 0.2, price 0.1, temporal 0.2. -/
def genreDiversityWeight : ℚ := 3/10
def developerDiversityWeight : ℚ := 1/5
def priceDiversityWeight : ℚ := 1/10
def temporalDiversityWeight : ℚ := 1/5

/-- `DiversityController._calculate_diversity_score`: 1.0 against an
empty selection, else the weighted average of the four dissimilarity
measures, renormalized by the total weight. -/
def diversityScore (c : EnrichedCandidate)
    (selected : List EnrichedCandidate) : ℚ :=
  if selected = [] then 1
  else
    (genreDiversity c.meta selected * genreDiversityWeight +
     developerDiversity c.meta selected * developerDiversityWeight +
     priceDiversity c.meta selected * priceDiversityWeight +
     temporalDiversity c.meta selected * temporalDiversityWeight) /
    (genreDiversityWeight + developerDiversityWeight +
     priceDiversityWeight + temporalDiversityWeight)

/-- Greedy objective of `_rerank_for_diversity`:
`(1 - diversity_strength) * original_score + diversity_strength * diversity_score`. -/
def combinedScore (strength : ℚ) (c : EnrichedCandidate)
    (selected : List EnrichedCandidate) : ℚ :=
  (1 - strength) * c.score + strength * diversityScore c selected

/-- Inner argmax loop of `_rerank_for_diversity`: scan the remaining
candidates left to right, keeping the index of the first strict
improvement over the running best score, which starts at `-1`. -/
def pickBestGo (strength : ℚ) (selected : List EnrichedCandidate) :
    List EnrichedCandidate → ℕ → ℚ → Option ℕ → Option ℕ
  | [], _, _, best => best
  | c :: rest, i, bestScore, best =>
    if bestScore < combinedScore strength c selected then
      pickBestGo strength selected rest (i + 1)
        (combinedScore strength c selected) (some i)
    else
      pickBestGo strength selected rest (i + 1) bestScore best

/-- Index of the candidate `_rerank_for_diversity` pops next (`None`
models the `best_candidate is None` break). -/
def pickBest (strength : ℚ) (selected remaining : List EnrichedCandidate) :
    Option ℕ :=
  pickBestGo strength selected remaining 0 (-1) none

/-- Outer `while remaining` loop of `_rerank_for_diversity`, with fuel
equal to the initial length of `remaining` (each successful pick removes
exactly one remaining candidate, so the Python loop performs at most
that many iterations).  The unreachable `none` row of the lookup merely
satisfies totality. -/
def rerankGo (strength : ℚ) :
    ℕ → List EnrichedCandidate → List EnrichedCandidate →
      List EnrichedCandidate
  | 0, selected, _ => selected
  | _ + 1, selected, [] => selected
  | fuel + 1, selected, remaining =>
    match pickBest strength selected remaining with
    | none => selected
    | some i =>
      match remaining[i]? with
      | none => selected
      | some c =>
        rerankGo strength fuel (selected ++ [c]) (remaining.eraseIdx i)

/-- `DiversityController._rerank_for_diversity`: returns short lists
unchanged, otherwise seeds the selection with the first (highest-scored)
candidate and greedily appends the remaining ones. -/
def rerankForDiversity (strength : ℚ)
    (candidates : List EnrichedCandidate) : List EnrichedCandidate :=
  match candidates with
  | [] => []
  | [c] => [c]
  | c :: rest => rerankGo strength rest.length [c] rest

/-- Window size `self.diversity_window = 5`. -/
def diversityWindow : ℕ := 5

/-- `DiversityController._diversify_recommendations`: re-rank the
leading window, pass the tail through unchanged. -/
def diversifyRecommendations (strength : ℚ)
    (candidates : List EnrichedCandidate) : List EnrichedCandidate :=
  if candidates.length ≤ 1 then candidates
  else
    rerankForDiversity strength (candidates.take diversityWindow) ++
      candidates.drop diversityWindow

/-- `DiversityController._enrich_with_metadata`: attach each candidate's
metadata, substituting the empty dictionary on a miss. -/
def enrichWithMetadata (meta : ℤ → Option GameMetadata)
    (candidates : List (ℤ × ℚ)) : List EnrichedCandidate :=
  candidates.map (fun p => ⟨p.1, p.2, (meta p.1).getD emptyMetadata⟩)

/-- `DiversityController.apply_diversity_control`: lists no longer than
the window pass through untouched; larger lists are enriched,
diversified and stripped back to `(item_id, score)` pairs. -/
def applyDiversityControl (meta : ℤ → Option GameMetadata)
    (strength : ℚ) (candidates : List (ℤ × ℚ)) : List (ℤ × ℚ) :=
  if candidates = [] ∨ candidates.length ≤ diversityWindow then candidates
  else
    (diversifyRecommendations strength
      (enrichWithMetadata meta candidates)).map (fun c => (c.id, c.score))

theorem sum_map_le_length {α : Type} (l : List α) (f : α → ℚ)
    (h : ∀ x ∈ l, f x ≤ 1) : (l.map f).sum ≤ (l.length : ℚ) := by
  induction l with
  | nil => simp
  | cons a t ih =>
    have ha := h a (List.mem_cons_self a t)
    have ht := ih (fun x hx => h x (List.mem_cons_of_mem a hx))
    simp only [List.map_cons, List.sum_cons, List.length_cons]
    push_cast
    linarith

theorem jaccardOverlap_nonneg (a b : List String) :
    0 ≤ jaccardOverlap a b := by
  unfold jaccardOverlap
  positivity

theorem jaccardOverlap_le_one (a b : List String) (ha : a ≠ []) :
    jaccardOverlap a b ≤ 1 := by
  unfold jaccardOverlap
  have hsub : a.toFinset ∩ b.toFinset ⊆ a.toFinset ∪ b.toFinset :=
    Finset.inter_subset_left.trans Finset.subset_union_left
  have hcard : (a.toFinset ∩ b.toFinset).card ≤
      (a.toFinset ∪ b.toFinset).card := Finset.card_le_card hsub
  have hne : a.toFinset.Nonempty := by
    rcases a with _ | ⟨x, t⟩
    · exact absurd rfl ha
    · exact ⟨x, by simp⟩
  have hpos : 0 < (a.toFinset ∪ b.toFinset).card :=
    Finset.card_pos.mpr (hne.mono Finset.subset_union_left)
  rw [div_le_one (by exact_mod_cast hpos)]
  exact_mod_cast hcard

theorem genreDiversity_nonneg (m : GameMetadata)
    (sel : List EnrichedCandidate) : 0 ≤ genreDiversity m sel := by
  unfold genreDiversity
  by_cases hg : m.genres = []
  · simp [hg]
  · simp only [hg, if_neg, ite_false]
    by_cases hsel : sel = []
    · simp [hsel]
    · simp only [hsel, ite_false]
      have hsum : (sel.map (fun s =>
          if s.meta.genres = [] then 0
          else jaccardOverlap m.genres s.meta.genres)).sum ≤
            (sel.length : ℚ) := by
        apply sum_map_le_length
        intro x _
        by_cases hx : x.meta.genres = []
        · simp [hx]
        · simp only [hx, ite_false]
          exact jaccardOverlap_le_one _ _ hg
      have hlen : (0 : ℚ) < sel.length := by
        have : sel.length ≠ 0 := fun h0 =>
          hsel (List.length_eq_zero.mp h0)
        exact_mod_cast Nat.pos_of_ne_zero this
      have := div_le_one_of_le₀ hsum (le_of_lt hlen)
      linarith

theorem developerDiversity_nonneg (m : GameMetadata)
    (sel : List EnrichedCandidate) : 0 ≤ developerDiversity m sel := by
  unfold developerDiversity
  split_ifs <;> norm_num

theorem priceDiversity_nonneg (m : GameMetadata)
    (sel : List EnrichedCandidate) : 0 ≤ priceDiversity m sel := by
  unfold priceDiversity
  rcases m.price with _ | cp
  · norm_num
  · dsimp only
    split_ifs <;> norm_num

theorem temporalDiversity_nonneg (m : GameMetadata)
    (sel : List EnrichedCandidate) : 0 ≤ temporalDiversity m sel := by
  unfold temporalDiversity
  rcases m.releaseYear with _ | cy
  · norm_num
  · dsimp only
    split_ifs <;> norm_num

theorem diversityScore_nonneg (c : EnrichedCandidate)
    (sel : List EnrichedCandidate) : 0 ≤ diversityScore c sel := by
  unfold diversityScore
  by_cases hsel : sel = []
  · simp [hsel]
  · simp only [hsel, ite_false]
    apply div_nonneg
    · have h1 := genreDiversity_nonneg c.meta sel
      have h2 := developerDiversity_nonneg c.meta sel
      have h3 := priceDiversity_nonneg c.meta sel
      have h4 := temporalDiversity_nonneg c.meta sel
      have w1 : (0 : ℚ) ≤ genreDiversityWeight := by norm_num [genreDiversityWeight]
      have w2 : (0 : ℚ) ≤ developerDiversityWeight := by norm_num [developerDiversityWeight]
      have w3 : (0 : ℚ) ≤ priceDiversityWeight := by norm_num [priceDiversityWeight]
      have w4 : (0 : ℚ) ≤ temporalDiversityWeight := by norm_num [temporalDiversityWeight]
      have := mul_nonneg h1 w1
      have := mul_nonneg h2 w2
      have := mul_nonneg h3 w3
      have := mul_nonneg h4 w4
      linarith
    · norm_num [genreDiversityWeight, developerDiversityWeight,
        priceDiversityWeight, temporalDiversityWeight]

theorem combinedScore_gt_neg_one {s : ℚ} (c : EnrichedCandidate)
    (sel : List EnrichedCandidate) (hs0 : 0 ≤ s) (hs1 : s ≤ 1)
    (hc : -1 < c.score) : -1 < combinedScore s c sel := by
  have hds := diversityScore_nonneg c sel
  rcases lt_or_eq_of_le hs1 with hlt | heq
  · have h1 : 0 < 1 - s := by linarith
    have h2 : (1 - s) * (-1) < (1 - s) * c.score :=
      mul_lt_mul_of_pos_left hc h1
    have h3 : 0 ≤ s * diversityScore c sel := mul_nonneg hs0 hds
    unfold combinedScore
    nlinarith
  · subst heq
    unfold combinedScore
    simp
    linarith

theorem combinedScore_zero (c : EnrichedCandidate)
    (sel : List EnrichedCandidate) : combinedScore 0 c sel = c.score := by
  unfold combinedScore
  ring

theorem pickBestGo_of_some (s : ℚ) (sel : List EnrichedCandidate) :
    ∀ (l : List EnrichedCandidate) (i : ℕ) (bs : ℚ) (j : ℕ),
      ∃ k, pickBestGo s sel l i bs (some j) = some k := by
  intro l
  induction l with
  | nil => intro i bs j; exact ⟨j, rfl⟩
  | cons c rest ih =>
    intro i bs j
    unfold pickBestGo
    by_cases h : bs < combinedScore s c sel
    · simp only [if_pos h]
      exact ih (i + 1) _ i
    · simp only [if_neg h]
      exact ih (i + 1) bs j

theorem pickBestGo_exists (s : ℚ) (sel : List EnrichedCandidate) :
    ∀ (l : List EnrichedCandidate) (i : ℕ) (bs : ℚ)
      (best : Option ℕ), (∃ c ∈ l, bs < combinedScore s c sel) →
      ∃ k, pickBestGo s sel l i bs best = some k := by
  intro l
  induction l with
  | nil =>
    intro i bs best h
    rcases h with ⟨c, hc, _⟩
    cases hc
  | cons c rest ih =>
    intro i bs best h
    unfold pickBestGo
    by_cases hcs : bs < combinedScore s c sel
    · simp only [if_pos hcs]
      exact pickBestGo_of_some s sel rest (i + 1) _ i
    · simp only [if_neg hcs]
      apply ih (i + 1) bs best
      rcases h with ⟨x, hx, hlt⟩
      rcases List.mem_cons.mp hx with rfl | hxr
      · exact absurd hlt hcs
      · exact ⟨x, hxr, hlt⟩

theorem pickBestGo_index_bound (s : ℚ) (sel : List EnrichedCandidate) :
    ∀ (l : List EnrichedCandidate) (i : ℕ) (bs : ℚ)
      (best : Option ℕ) (j : ℕ),
      pickBestGo s sel l i bs best = some j →
      best = some j ∨ (i ≤ j ∧ j < i + l.length) := by
  intro l
  induction l with
  | nil =>
    intro i bs best j h
    exact Or.inl h
  | cons c rest ih =>
    intro i bs best j h
    unfold pickBestGo at h
    by_cases hcs : bs < combinedScore s c sel
    · rw [if_pos hcs] at h
      rcases ih (i + 1) _ (some i) j h with h1 | h2
      · have : i = j := by injection h1
        subst this
        right
        simp
      · right
        simp only [List.length_cons]
        omega
    · rw [if_neg hcs] at h
      rcases ih (i + 1) bs best j h with h1 | h2
      · exact Or.inl h1
      · right
        simp only [List.length_cons]
        omega

theorem pickBest_spec (s : ℚ) (sel : List EnrichedCandidate)
    (remaining : List EnrichedCandidate) (hne : remaining ≠ [])
    (hall : ∀ c ∈ remaining, -1 < combinedScore s c sel) :
    ∃ j, pickBest s sel remaining = some j ∧ j < remaining.length := by
  rcases remaining with _ | ⟨c0, rest⟩
  · exact absurd rfl hne
  · have hex : ∃ c ∈ c0 :: rest, (-1 : ℚ) < combinedScore s c sel :=
      ⟨c0, List.mem_cons_self c0 rest, hall c0 (List.mem_cons_self c0 rest)⟩
    rcases pickBestGo_exists s sel (c0 :: rest) 0 (-1) none hex with ⟨k, hk⟩
    refine ⟨k, hk, ?_⟩
    rcases pickBestGo_index_bound s sel (c0 :: rest) 0 (-1) none k hk with h | h
    · cases h
    · omega

theorem cons_eraseIdx_perm {α : Type} :
    ∀ (l : List α) (j : ℕ) (c : α), l[j]? = some c →
      (c :: l.eraseIdx j).Perm l := by
  intro l
  induction l with
  | nil => intro j c h; cases h
  | cons a t ih =>
    intro j c h
    rcases j with _ | j
    · have : c = a := by
        simp at h
        exact h.symm
      subst this
      simp [List.eraseIdx]
    · have ht : t[j]? = some c := by simpa using h
      have hperm := ih j c ht
      have h1 : (a :: t).eraseIdx (j + 1) = a :: t.eraseIdx j := by
        simp [List.eraseIdx]
      rw [h1]
      exact (List.Perm.swap a c (t.eraseIdx j)).trans (hperm.cons a)

theorem mem_of_mem_eraseIdx {α : Type} :
    ∀ (l : List α) (j : ℕ) (x : α), x ∈ l.eraseIdx j → x ∈ l := by
  intro l
  induction l with
  | nil => intro j x h; cases h
  | cons a t ih =>
    intro j x h
    rcases j with _ | j
    · exact List.mem_cons_of_mem a (by simpa [List.eraseIdx] using h)
    · simp only [List.eraseIdx] at h
      rcases List.mem_cons.mp h with rfl | hx
      · exact List.mem_cons_self x t
      · exact List.mem_cons_of_mem a (ih j x hx)

theorem rerankGo_perm (s : ℚ) (hs0 : 0 ≤ s) (hs1 : s ≤ 1) :
    ∀ (fuel : ℕ) (remaining selected : List EnrichedCandidate),
      remaining.length = fuel →
      (∀ c ∈ remaining, (-1 : ℚ) < c.score) →
      (rerankGo s fuel selected remaining).Perm (selected ++ remaining) := by
  intro fuel
  induction fuel with
  | zero =>
    intro rem sel hlen _
    have : rem = [] := List.length_eq_zero.mp hlen
    subst this
    simp [rerankGo]
  | succ n ih =>
    intro rem sel hlen hall
    rcases rem with _ | ⟨c0, rest⟩
    · simp at hlen
    · have hallc : ∀ c ∈ c0 :: rest, (-1 : ℚ) < combinedScore s c sel :=
        fun c hc => combinedScore_gt_neg_one c sel hs0 hs1 (hall c hc)
      rcases pickBest_spec s sel (c0 :: rest) (by simp) hallc with ⟨j, hj, hjlt⟩
      have hget : (c0 :: rest)[j]? = some ((c0 :: rest).get ⟨j, hjlt⟩) := by
        simp [List.getElem?_eq_getElem hjlt]
      have hstep : rerankGo s (n + 1) sel (c0 :: rest) =
          rerankGo s n (sel ++ [(c0 :: rest).get ⟨j, hjlt⟩])
            ((c0 :: rest).eraseIdx j) := by
        simp only [rerankGo, hj, hget]
      rw [hstep]
      have hlen2 : ((c0 :: rest).eraseIdx j).length = n := by
        rw [List.length_eraseIdx]
        simp only [if_pos hjlt]
        simp at hlen ⊢
        omega
      have hall2 : ∀ c ∈ (c0 :: rest).eraseIdx j, (-1 : ℚ) < c.score :=
        fun c hc => hall c (mem_of_mem_eraseIdx _ j c hc)
      have hperm := ih ((c0 :: rest).eraseIdx j)
        (sel ++ [(c0 :: rest).get ⟨j, hjlt⟩]) hlen2 hall2
      have hassoc : (sel ++ [(c0 :: rest).get ⟨j, hjlt⟩]) ++
          (c0 :: rest).eraseIdx j =
          sel ++ ((c0 :: rest).get ⟨j, hjlt⟩ :: (c0 :: rest).eraseIdx j) := by
        simp
      have hback : ((c0 :: rest).get ⟨j, hjlt⟩ ::
          (c0 :: rest).eraseIdx j).Perm (c0 :: rest) :=
        cons_eraseIdx_perm (c0 :: rest) j _ (by
          simp [List.getElem?_eq_getElem hjlt])
      refine hperm.trans ?_
      rw [hassoc]
      exact hback.append_left sel

theorem rerankForDiversity_perm (s : ℚ) (hs0 : 0 ≤ s) (hs1 : s ≤ 1)
    (cands : List EnrichedCandidate)
    (hall : ∀ c ∈ cands, (-1 : ℚ) < c.score) :
    (rerankForDiversity s cands).Perm cands := by
  rcases cands with _ | ⟨c, rest⟩
  · simp [rerankForDiversity]
  · rcases rest with _ | ⟨c2, t⟩
    · simp [rerankForDiversity]
    · have hall2 : ∀ x ∈ c2 :: t, (-1 : ℚ) < x.score :=
        fun x hx => hall x (List.mem_cons_of_mem c hx)
      have := rerankGo_perm s hs0 hs1 (c2 :: t).length (c2 :: t) [c] rfl hall2
      simpa [rerankForDiversity] using this

theorem enrich_score_mem (meta : ℤ → Option GameMetadata)
    (cands : List (ℤ × ℚ)) (hpos : ∀ p ∈ cands, (-1 : ℚ) < p.2) :
    ∀ c ∈ enrichWithMetadata meta cands, (-1 : ℚ) < c.score := by
  intro c hc
  rcases List.mem_map.mp hc with ⟨p, hp, rfl⟩
  exact hpos p hp

theorem enrich_proj (meta : ℤ → Option GameMetadata)
    (cands : List (ℤ × ℚ)) :
    (enrichWithMetadata meta cands).map (fun c => (c.id, c.score)) =
      cands := by
  unfold enrichWithMetadata
  rw [List.map_map]
  simp [Function.comp_def]

/-- C6 (amended): for every candidate list in which every score exceeds
-1 and every diversity strength in [0,1], diversity control removes no
candidate: only the leading window of size 5 may be permuted, every item
beyond the window stays in its original position, and the output is a
permutation (same length and multiset of pairs) of the input.  (The
score bound is forced by the `best_score = -1` sentinel of the greedy
loop, which silently drops window items whose combined score cannot
exceed -1.) -/
theorem diversity_never_removes (meta : ℤ → Option GameMetadata)
    (s : ℚ) (cands : List (ℤ × ℚ)) (hs0 : 0 ≤ s) (hs1 : s ≤ 1)
    (hpos : ∀ p ∈ cands, (-1 : ℚ) < p.2) :
    ((applyDiversityControl meta s cands).take diversityWindow).Perm
      (cands.take diversityWindow) ∧
    (applyDiversityControl meta s cands).drop diversityWindow =
      cands.drop diversityWindow ∧
    (applyDiversityControl meta s cands).Perm cands := by
  by_cases hshort : cands = [] ∨ cands.length ≤ diversityWindow
  · rw [applyDiversityControl, if_pos hshort]
    exact ⟨List.Perm.refl _, rfl, List.Perm.refl _⟩
  · rw [applyDiversityControl, if_neg hshort]
    push_neg at hshort
    obtain ⟨-, hlong⟩ := hshort
    have hlen5 : diversityWindow < cands.length := by omega
    have henr : (enrichWithMetadata meta cands).length = cands.length := by
      simp [enrichWithMetadata]
    have hlong2 : ¬ (enrichWithMetadata meta cands).length ≤ 1 := by
      rw [henr]
      simp only [diversityWindow] at hlen5
      omega
    rw [diversifyRecommendations, if_neg hlong2]
    set enr := enrichWithMetadata meta cands with henr_def
    have hallW : ∀ c ∈ enr.take diversityWindow, (-1 : ℚ) < c.score :=
      fun c hc =>
        enrich_score_mem meta cands hpos c (List.mem_of_mem_take hc)
    have hWperm : (rerankForDiversity s (enr.take diversityWindow)).Perm
        (enr.take diversityWindow) :=
      rerankForDiversity_perm s hs0 hs1 _ hallW
    have htakelen : (enr.take diversityWindow).length = diversityWindow := by
      rw [List.length_take]
      rw [henr_def, henr]
      omega
    have hWlen : ((rerankForDiversity s (enr.take diversityWindow)).map
        (fun c => (c.id, c.score))).length = diversityWindow := by
      rw [List.length_map, hWperm.length_eq, htakelen]
    have hsplit : (rerankForDiversity s (enr.take diversityWindow) ++
        enr.drop diversityWindow).map (fun c => (c.id, c.score)) =
        (rerankForDiversity s (enr.take diversityWindow)).map
          (fun c => (c.id, c.score)) ++
        (enr.drop diversityWindow).map (fun c => (c.id, c.score)) := by
      rw [List.map_append]
    have hdropeq : (enr.drop diversityWindow).map
        (fun c => (c.id, c.score)) = cands.drop diversityWindow := by
      rw [henr_def]
      unfold enrichWithMetadata
      rw [← List.map_drop, List.map_map]
      simp [Function.comp_def]
    have htakeeq : ((enr.take diversityWindow).map
        (fun c => (c.id, c.score))) = cands.take diversityWindow := by
      rw [henr_def]
      unfold enrichWithMetadata
      rw [← List.map_take, List.map_map]
      simp [Function.comp_def]
    have htake : ((rerankForDiversity s (enr.take diversityWindow) ++
        enr.drop diversityWindow).map (fun c => (c.id, c.score))).take
          diversityWindow =
        (rerankForDiversity s (enr.take diversityWindow)).map
          (fun c => (c.id, c.score)) := by
      rw [hsplit]
      exact List.take_left' hWlen
    have hdrop : ((rerankForDiversity s (enr.take diversityWindow) ++
        enr.drop diversityWindow).map (fun c => (c.id, c.score))).drop
          diversityWindow =
        (enr.drop diversityWindow).map (fun c => (c.id, c.score)) := by
      rw [hsplit]
      exact List.drop_left' hWlen
    refine ⟨?_, ?_, ?_⟩
    · rw [htake, ← htakeeq]
      exact hWperm.map _
    · rw [hdrop, hdropeq]
    · rw [hsplit, hdropeq]
      have h1 : ((rerankForDiversity s (enr.take diversityWindow)).map
          (fun c => (c.id, c.score))).Perm (cands.take diversityWindow) := by
        rw [← htakeeq]
        exact hWperm.map _
      have h2 := h1.append (List.Perm.refl (cands.drop diversityWindow))
      have h3 : cands.take diversityWindow ++ cands.drop diversityWindow =
          cands := List.take_append_drop diversityWindow cands
      rw [h3] at h2
      exact h2

theorem pickBestGo_const (s : ℚ) (sel : List EnrichedCandidate) :
    ∀ (l : List EnrichedCandidate) (i : ℕ) (bs : ℚ) (best : Option ℕ),
      (∀ c ∈ l, combinedScore s c sel ≤ bs) →
      pickBestGo s sel l i bs best = best := by
  intro l
  induction l with
  | nil => intro i bs best _; rfl
  | cons c rest ih =>
    intro i bs best h
    unfold pickBestGo
    have hc : ¬ bs < combinedScore s c sel :=
      not_lt.mpr (h c (List.mem_cons_self c rest))
    rw [if_neg hc]
    exact ih (i + 1) bs best (fun x hx => h x (List.mem_cons_of_mem c hx))

theorem pickBest_sorted_head (sel : List EnrichedCandidate)
    (c0 : EnrichedCandidate) (rest : List EnrichedCandidate)
    (hhead : (-1 : ℚ) < c0.score)
    (hsorted : ∀ c ∈ rest, c.score ≤ c0.score) :
    pickBest 0 sel (c0 :: rest) = some 0 := by
  unfold pickBest pickBestGo
  rw [combinedScore_zero, if_pos hhead]
  apply pickBestGo_const
  intro c hc
  rw [combinedScore_zero]
  exact hsorted c hc

theorem rerankGo_sorted :
    ∀ (fuel : ℕ) (remaining selected : List EnrichedCandidate),
      remaining.length = fuel →
      remaining.Pairwise (fun a b => b.score ≤ a.score) →
      (∀ c ∈ remaining, (-1 : ℚ) < c.score) →
      rerankGo 0 fuel selected remaining = selected ++ remaining := by
  intro fuel
  induction fuel with
  | zero =>
    intro rem sel hlen _ _
    have : rem = [] := List.length_eq_zero.mp hlen
    subst this
    simp [rerankGo]
  | succ n ih =>
    intro rem sel hlen hsorted hall
    rcases rem with _ | ⟨c0, rest⟩
    · simp at hlen
    · rcases List.pairwise_cons.mp hsorted with ⟨hhead, htail⟩
      have hpick : pickBest 0 sel (c0 :: rest) = some 0 :=
        pickBest_sorted_head sel c0 rest
          (hall c0 (List.mem_cons_self c0 rest)) hhead
      have hstep : rerankGo 0 (n + 1) sel (c0 :: rest) =
          rerankGo 0 n (sel ++ [c0]) rest := by
        simp only [rerankGo, hpick, List.getElem?_cons_zero, List.eraseIdx]
      rw [hstep]
      have hlen2 : rest.length = n := by simp at hlen; omega
      have hall2 : ∀ c ∈ rest, (-1 : ℚ) < c.score :=
        fun c hc => hall c (List.mem_cons_of_mem c0 hc)
      rw [ih rest (sel ++ [c0]) hlen2 htail hall2]
      simp

theorem rerankForDiversity_sorted (cands : List EnrichedCandidate)
    (hsorted : cands.Pairwise (fun a b => b.score ≤ a.score))
    (hall : ∀ c ∈ cands, (-1 : ℚ) < c.score) :
    rerankForDiversity 0 cands = cands := by
  rcases cands with _ | ⟨c, rest⟩
  · rfl
  · rcases rest with _ | ⟨c2, t⟩
    · rfl
    · have htail : (c2 :: t).Pairwise (fun a b => b.score ≤ a.score) :=
        (List.pairwise_cons.mp hsorted).2
      have hall2 : ∀ x ∈ c2 :: t, (-1 : ℚ) < x.score :=
        fun x hx => hall x (List.mem_cons_of_mem c hx)
      have := rerankGo_sorted (c2 :: t).length (c2 :: t) [c] rfl htail hall2
      simpa [rerankForDiversity] using this

/-- C7 (amended): for a candidate list already sorted in descending
score order whose scores all exceed -1, diversity control with strength
0 returns the list in exactly the input order.  (The score bound is
forced by the `best_score = -1` sentinel of the greedy loop.) -/
theorem diversity_zero_strength_identity (meta : ℤ → Option GameMetadata)
    (cands : List (ℤ × ℚ))
    (hsorted : cands.Pairwise (fun a b => b.2 ≤ a.2))
    (hpos : ∀ p ∈ cands, (-1 : ℚ) < p.2) :
    applyDiversityControl meta 0 cands = cands := by
  by_cases hshort : cands = [] ∨ cands.length ≤ diversityWindow
  · rw [applyDiversityControl, if_pos hshort]
  · rw [applyDiversityControl, if_neg hshort]
    push_neg at hshort
    obtain ⟨-, hlong⟩ := hshort
    have henr : (enrichWithMetadata meta cands).length = cands.length := by
      simp [enrichWithMetadata]
    have hlong2 : ¬ (enrichWithMetadata meta cands).length ≤ 1 := by
      rw [henr]
      simp only [diversityWindow] at hlong
      omega
    rw [diversifyRecommendations, if_neg hlong2]
    have hsortedE : (enrichWithMetadata meta cands).Pairwise
        (fun a b => b.score ≤ a.score) := by
      unfold enrichWithMetadata
      rw [List.pairwise_map]
      exact hsorted
    have hsortedW : ((enrichWithMetadata meta cands).take
        diversityWindow).Pairwise (fun a b => b.score ≤ a.score) :=
      hsortedE.sublist (List.take_sublist _ _)
    have hallW : ∀ c ∈ (enrichWithMetadata meta cands).take
        diversityWindow, (-1 : ℚ) < c.score :=
      fun c hc => enrich_score_mem meta cands hpos c (List.mem_of_mem_take hc)
    rw [rerankForDiversity_sorted _ hsortedW hallW, List.take_append_drop]
    exact enrich_proj meta cands

/-- C10: a candidate list no longer than the diversity window (5) is
returned completely unchanged, for every diversity strength. -/
theorem diversity_short_list_unchanged (meta : ℤ → Option GameMetadata)
    (s : ℚ) (cands : List (ℤ × ℚ))
    (hshort : cands.length ≤ diversityWindow) :
    applyDiversityControl meta s cands = cands := by
  rw [applyDiversityControl, if_pos (Or.inr hshort)]

/-- Metadata oracle for the C6 witness. -/
def wMeta6 : ℤ → Option GameMetadata := fun i =>
  if i = 1 then some ⟨some "Valve", ["RPG", "Action"], some 30, some 2021, some 88, []⟩
  else if i = 2 then some ⟨some "Sega", ["Action"], some 10, some 2012, some 70, []⟩
  else none

/-- Candidate list for the C6 witness (6 items, scores above -1). -/
def wCands6 : List (ℤ × ℚ) :=
  [(1, 1), (2, 9/10), (3, 8/10), (4, 7/10), (5, 6/10), (6, 5/10)]

theorem diversity_never_removes_witness :
    ((applyDiversityControl wMeta6 (1/2) wCands6).take
      diversityWindow).Perm (wCands6.take diversityWindow) ∧
    (applyDiversityControl wMeta6 (1/2) wCands6).drop diversityWindow =
      wCands6.drop diversityWindow ∧
    (applyDiversityControl wMeta6 (1/2) wCands6).Perm wCands6 :=
  diversity_never_removes wMeta6 (1/2) wCands6 (by norm_num) (by norm_num)
    (by norm_num [wCands6])

/-- Candidate list refuting C6 as stated: strength 0 is in [0,1], yet
four window items with score -1 are silently dropped by the
`best_score = -1` sentinel of the greedy loop. -/
def cxCands6 : List (ℤ × ℚ) :=
  [(1, 5), (2, -1), (3, -1), (4, -1), (5, -1), (6, -2)]

theorem diversity_never_removes_cex :
    applyDiversityControl (fun _ => none) 0 cxCands6 = [(1, 5), (6, -2)] ∧
    cxCands6.length = 6 := by
  refine ⟨?_, by norm_num [cxCands6]⟩
  norm_num [applyDiversityControl, cxCands6, diversityWindow,
    diversifyRecommendations, enrichWithMetadata, rerankForDiversity,
    rerankGo, pickBest, pickBestGo, combinedScore_zero, List.eraseIdx,
    emptyMetadata]
  simp

/-- Sorted candidate list for the C7 witness. -/
def wCands7 : List (ℤ × ℚ) :=
  [(1, 2), (2, 1), (3, 1/2), (4, 1/3), (5, 1/4), (6, 0)]

theorem diversity_zero_strength_identity_witness :
    applyDiversityControl (fun _ => none) 0 wCands7 = wCands7 :=
  diversity_zero_strength_identity (fun _ => none) wCands7
    (by norm_num [wCands7, List.pairwise_cons]) (by norm_num [wCands7])

/-- Strictly descending candidate list refuting C7 as stated: with
strength 0 every remaining window item has combined score at most the
`best_score = -1` sentinel, so the greedy loop breaks and drops items
2–5 instead of returning the input order. -/
def cxCands7 : List (ℤ × ℚ) :=
  [(1, -1), (2, -2), (3, -3), (4, -4), (5, -5), (6, -6)]

theorem diversity_zero_strength_identity_cex :
    cxCands7.Pairwise (fun a b => b.2 ≤ a.2) ∧
    applyDiversityControl (fun _ => none) 0 cxCands7 = [(1, -1), (6, -6)] ∧
    applyDiversityControl (fun _ => none) 0 cxCands7 ≠ cxCands7 := by
  have heval : applyDiversityControl (fun _ => none) 0 cxCands7 =
      [(1, -1), (6, -6)] := by
    norm_num [applyDiversityControl, cxCands7, diversityWindow,
      diversifyRecommendations, enrichWithMetadata, rerankForDiversity,
      rerankGo, pickBest, pickBestGo, combinedScore_zero, List.eraseIdx,
      emptyMetadata]
    simp
  refine ⟨by norm_num [cxCands7, List.pairwise_cons], heval, ?_⟩
  rw [heval]
  norm_num [cxCands7]

/-- Candidate list for the C10 witness (3 items fit inside the
window). -/
def wCands10 : List (ℤ × ℚ) := [(1, 1), (2, 1/2), (3, 0)]

theorem diversity_short_list_unchanged_witness :
    applyDiversityControl (fun _ => none) (9/10) wCands10 = wCands10 :=
  diversity_short_list_unchanged (fun _ => none) (9/10) wCands10
    (by norm_num [wCands10, diversityWindow])

/-- Configured threshold `settings.MIN_INTERACTION_FOR_CONTENT = 3`. -/
def minInteractionForContent : ℕ := 3

/-- Configured threshold `settings.MIN_INTERACTION_FOR_EMBEDDING = 5`. -/
def minInteractionForEmbedding : ℕ := 5

/-- The I/O collaborators of `RecommendationPipeline.recommend`, modelled
as oracles; `Except String` models a raised exception. -/
structure PipelineEnv where
  cachedRecommendations : Except String (Option (List ℤ))
  interactionCountRaw : Except String ℕ
  recallResult : String → Except String (List (ℤ × ℚ))
  rankAndFilter : List (ℤ × ℚ) → String → Except String (List (ℤ × ℚ))
  cacheWrite : List ℤ → Except String Unit

/-- The response dictionary of `recommend` (dropping the wall-clock
timing fields, which are not modelled). -/
structure RecommendResult where
  userId : ℤ
  recommendations : List ℤ
  algorithm : String
  fromCache : Bool
deriving DecidableEq

/-- `RecommendationPipeline._empty_recommendation_result`. -/
def emptyRecommendationResult (userId : ℤ) (algorithm : String) :
    RecommendResult :=
  ⟨userId, [], algorithm, false⟩

/-- `RecommendationPipeline._get_user_interaction_count`: its own
`try/except` turns a raised exception into the count 0. -/
def getUserInteractionCount (env : PipelineEnv) : ℕ :=
  match env.interactionCountRaw with
  | Except.ok n => n
  | Except.error _ => 0

/-- `RecommendationPipeline._select_recall_algorithm`. -/
def selectRecallAlgorithm (algorithm : String) (interactionCount : ℕ) :
    String :=
  if algorithm ≠ "auto" then algorithm
  else if interactionCount < minInteractionForContent then "popularity"
  else if interactionCount < minInteractionForEmbedding then "content"
  else "embedding"

/-- Body of `recommend` after the result-cache check misses (steps 2-9):
select the recall algorithm, run recall, short-circuit to the
empty-shaped result when recall yields no candidates, otherwise rank and
filter, truncate to `top_k`, cache in automatic mode, and answer. -/
def recommendUncached (env : PipelineEnv) (userId : ℤ) (topK : ℕ)
    (algorithm strategy : String) : Except String RecommendResult := do
  let interactionCount := getUserInteractionCount env
  let recallAlgorithm := selectRecallAlgorithm algorithm interactionCount
  let candidates ← env.recallResult recallAlgorithm
  if candidates = [] then
    return emptyRecommendationResult userId recallAlgorithm
  else
    let filtered ← env.rankAndFilter candidates strategy
    let finalRecommendations := filtered.take topK
    let _ ← (if algorithm = "auto" ∧ finalRecommendations ≠ [] then
        env.cacheWrite (finalRecommendations.map Prod.fst)
      else Except.ok ())
    return ⟨userId, finalRecommendations.map Prod.fst, recallAlgorithm, false⟩

/-- The `try` body of `RecommendationPipeline.recommend`: in automatic
mode a truthy (non-empty) cached result is answered directly, anything
else recomputes. -/
def recommendCore (env : PipelineEnv) (userId : ℤ) (topK : ℕ)
    (algorithm strategy : String) : Except String RecommendResult := do
  let cached ← (if algorithm = "auto" then env.cachedRecommendations
    else Except.ok none)
  match cached with
  | some c =>
    if c ≠ [] then
      return ⟨userId, c.take topK, "cached", true⟩
    else
      recommendUncached env userId topK algorithm strategy
  | none => recommendUncached env userId topK algorithm strategy

/-- `RecommendationPipeline.recommend`: the enclosing `except Exception`
turns any raised exception into the empty-shaped result tagged
`"error"`. -/
def recommend (env : PipelineEnv) (userId : ℤ) (topK : ℕ)
    (algorithm strategy : String) : RecommendResult :=
  match recommendCore env userId topK algorithm strategy with
  | Except.ok r => r
  | Except.error _ => emptyRecommendationResult userId "error"

theorem recommendCore_cache_miss (env : PipelineEnv) (u : ℤ) (k : ℕ)
    (a s : String)
    (hcm : a ≠ "auto" ∨ env.cachedRecommendations = Except.ok none ∨
      env.cachedRecommendations = Except.ok (some [])) :
    recommendCore env u k a s = recommendUncached env u k a s := by
  by_cases ha : a = "auto"
  · rcases hcm with h | h | h
    · exact absurd ha h
    · simp [recommendCore, ha, h, Bind.bind, Except.bind]
    · simp [recommendCore, ha, h, Bind.bind, Except.bind]
  · simp [recommendCore, ha, Bind.bind, Except.bind]

theorem recommendUncached_recall_empty (env : PipelineEnv) (u : ℤ)
    (k : ℕ) (a s : String)
    (hrec : env.recallResult
      (selectRecallAlgorithm a (getUserInteractionCount env)) =
        Except.ok []) :
    recommendUncached env u k a s =
      Except.ok (emptyRecommendationResult u
        (selectRecallAlgorithm a (getUserInteractionCount env))) := by
  simp [recommendUncached, hrec, Bind.bind, Except.bind, pure, Except.pure]

theorem recommendUncached_recall_error (env : PipelineEnv) (u : ℤ)
    (k : ℕ) (a s : String) (e : String)
    (hrec : env.recallResult
      (selectRecallAlgorithm a (getUserInteractionCount env)) =
        Except.error e) :
    recommendUncached env u k a s = Except.error e := by
  simp [recommendUncached, hrec, Bind.bind, Except.bind]

theorem recommendUncached_rank_error (env : PipelineEnv) (u : ℤ)
    (k : ℕ) (a s : String) (cs : List (ℤ × ℚ)) (e : String)
    (hrec : env.recallResult
      (selectRecallAlgorithm a (getUserInteractionCount env)) =
        Except.ok cs)
    (hcs : cs ≠ [])
    (hrank : env.rankAndFilter cs s = Except.error e) :
    recommendUncached env u k a s = Except.error e := by
  simp [recommendUncached, hrec, hcs, hrank, Bind.bind, Except.bind]

/-- C1 (amended): on a result-cache miss, if recall yields zero
candidates the pipeline short-circuits — the answer is the empty-shaped
response and does not depend on the rank-and-filter stage at all — but
its algorithm tag is the SELECTED RECALL ALGORITHM (e.g. "popularity"),
not the literal "empty"; and if the recall stage, the rank-and-filter
stage, or the cache lookup raises, the pipeline returns the same
empty-shaped response tagged "error" instead of propagating. -/
theorem pipeline_empty_and_error_tags (env : PipelineEnv) (userId : ℤ)
    (topK : ℕ) (algorithm strategy : String) :
    ((algorithm ≠ "auto" ∨ env.cachedRecommendations = Except.ok none ∨
        env.cachedRecommendations = Except.ok (some [])) →
      ((env.recallResult (selectRecallAlgorithm algorithm
          (getUserInteractionCount env)) = Except.ok [] →
        ∀ rf, recommend { env with rankAndFilter := rf } userId topK
            algorithm strategy =
          emptyRecommendationResult userId (selectRecallAlgorithm algorithm
            (getUserInteractionCount env))) ∧
       (∀ e, env.recallResult (selectRecallAlgorithm algorithm
          (getUserInteractionCount env)) = Except.error e →
        recommend env userId topK algorithm strategy =
          emptyRecommendationResult userId "error") ∧
       (∀ cs e, env.recallResult (selectRecallAlgorithm algorithm
          (getUserInteractionCount env)) = Except.ok cs → cs ≠ [] →
        env.rankAndFilter cs strategy = Except.error e →
        recommend env userId topK algorithm strategy =
          emptyRecommendationResult userId "error"))) ∧
    (∀ e, algorithm = "auto" →
      env.cachedRecommendations = Except.error e →
      recommend env userId topK algorithm strategy =
        emptyRecommendationResult userId "error") := by
  constructor
  · intro hcm
    refine ⟨?_, ?_, ?_⟩
    · intro hrec rf
      have hcm2 : algorithm ≠ "auto" ∨
          ({ env with rankAndFilter := rf } :
            PipelineEnv).cachedRecommendations = Except.ok none ∨
          ({ env with rankAndFilter := rf } :
            PipelineEnv).cachedRecommendations = Except.ok (some []) := hcm
      have h2 := recommendUncached_recall_empty
        { env with rankAndFilter := rf } userId topK algorithm strategy hrec
      rw [recommend, recommendCore_cache_miss _ _ _ _ _ hcm2, h2]
      rfl
    · intro e hrec
      rw [recommend, recommendCore_cache_miss _ _ _ _ _ hcm,
        recommendUncached_recall_error _ _ _ _ _ _ hrec]
    · intro cs e hrec hcs hrank
      rw [recommend, recommendCore_cache_miss _ _ _ _ _ hcm,
        recommendUncached_rank_error _ _ _ _ _ _ _ hrec hcs hrank]
  · intro e ha hcache
    rw [recommend]
    have : recommendCore env userId topK algorithm strategy =
        Except.error e := by
      simp [recommendCore, ha, hcache, Bind.bind, Except.bind]
    rw [this]

/-- Oracle environment for the C1 witness and counterexample: result
cache misses, a user with 0 interactions, a recall stage that yields
zero candidates. -/
def wEnv1 : PipelineEnv :=
  ⟨Except.ok none, Except.ok 0, fun _ => Except.ok [],
   fun c _ => Except.ok c, fun _ => Except.ok ()⟩

/-- Oracle environment whose cache lookup raises. -/
def wEnv1Err : PipelineEnv :=
  ⟨Except.error "redis down", Except.ok 0, fun _ => Except.ok [],
   fun c _ => Except.ok c, fun _ => Except.ok ()⟩

theorem pipeline_empty_and_error_tags_witness :
    recommend wEnv1 3 10 "auto" "default" =
      emptyRecommendationResult 3
        (selectRecallAlgorithm "auto" (getUserInteractionCount wEnv1)) ∧
    recommend wEnv1Err 3 10 "auto" "default" =
      emptyRecommendationResult 3 "error" :=
  ⟨((pipeline_empty_and_error_tags wEnv1 3 10 "auto" "default").1
      (Or.inr (Or.inl rfl))).1 rfl wEnv1.rankAndFilter,
   (pipeline_empty_and_error_tags wEnv1Err 3 10 "auto" "default").2
     "redis down" rfl rfl⟩

theorem pipeline_empty_tag_cex :
    recommend wEnv1 7 10 "auto" "default" =
      emptyRecommendationResult 7 "popularity" ∧
    (recommend wEnv1 7 10 "auto" "default").algorithm ≠ "empty" := by
  have heval : recommend wEnv1 7 10 "auto" "default" =
      emptyRecommendationResult 7 "popularity" := by
    simp [recommend, recommendCore, recommendUncached, wEnv1,
      getUserInteractionCount, selectRecallAlgorithm,
      minInteractionForContent, minInteractionForEmbedding, Bind.bind,
      Except.bind, pure, Except.pure]
  refine ⟨heval, ?_⟩
  rw [heval]
  simp [emptyRecommendationResult]

/-- Euclidean norm `np.linalg.norm` of a `D`-dimensional vector. -/
noncomputable def vnorm {D : ℕ} (v : Fin D → ℝ) : ℝ :=
  Real.sqrt (∑ i, v i ^ 2)

/-- The cache state `FeatureStore.get_dynamic_user_embedding` reads: the
user's base embedding, the user's stored interaction sequence
(most-recent-first), and the per-item embedding cache. -/
structure FusionEnv (D : ℕ) where
  userEmbedding : Option (Fin D → ℝ)
  storedSequence : List ℤ
  itemEmbedding : ℤ → Option (Fin D → ℝ)

/-- `get_user_sequence(user_id, max_sequence_len)`: the Redis
`lrange 0 (max_len - 1)` prefix of the stored sequence. -/
def getUserSequence {D : ℕ} (env : FusionEnv D) (maxLen : ℕ) : List ℤ :=
  env.storedSequence.take maxLen

/-- The `(position, embedding)` pairs of the sequence items whose
embeddings resolve from the cache (`enumerate(user_sequence)` filtered
by `item_id in item_embeddings`; the batch dictionary holds exactly the
resolvable ids, so both the dict-empty check and the membership test
reduce to this filter). -/
def resolvedItems {D : ℕ} (env : FusionEnv D) (seq : List ℤ) :
    List (ℕ × (Fin D → ℝ)) :=
  seq.enum.filterMap (fun p => (env.itemEmbedding p.2).map (fun v => (p.1, v)))

/-- Per-position fusion weight: exponential recency decay
`exp(-0.1 * position)` when time decay is enabled, else uniform 1.0. -/
noncomputable def itemWeight (useTimeDecay : Bool) (position : ℕ) : ℝ :=
  if useTimeDecay then Real.exp (-(1/10) * position) else 1

/-- The normalized-weight average of the resolved item embeddings
(`interaction_vector`). -/
noncomputable def interactionVector {D : ℕ} (env : FusionEnv D)
    (seq : List ℤ) (useTimeDecay : Bool) : Fin D → ℝ :=
  fun i =>
    ((resolvedItems env seq).map (fun p =>
      itemWeight useTimeDecay p.1 /
        ((resolvedItems env seq).map
          (fun q => itemWeight useTimeDecay q.1)).sum * p.2 i)).sum

/-- Step 5 of the fusion:
`dynamic = (1 - fusion_weight) * original + fusion_weight * interaction_vector`. -/
noncomputable def fusedVector {D : ℕ} (u iv : Fin D → ℝ)
    (fusionWeight : ℝ) : Fin D → ℝ :=
  fun i => (1 - fusionWeight) * u i + fusionWeight * iv i

open Classical in
/-- `FeatureStore.get_dynamic_user_embedding`: `none` when the base user
embedding is absent; the base vector unchanged when the fetched sequence
is shorter than `min_interactions` or none of its items' embeddings
resolve; otherwise the fused vector, rescaled to the base vector's norm
when its own norm is positive. -/
noncomputable def getDynamicUserEmbedding {D : ℕ} (env : FusionEnv D)
    (minInteractions : ℕ) (fusionWeight : ℝ) (maxSequenceLen : ℕ)
    (useTimeDecay : Bool) : Option (Fin D → ℝ) :=
  match env.userEmbedding with
  | none => none
  | some u =>
    let seq := getUserSequence env maxSequenceLen
    if seq.length < minInteractions then some u
    else if (resolvedItems env seq).isEmpty then some u
    else
      let fused := fusedVector u (interactionVector env seq useTimeDecay)
        fusionWeight
      if 0 < vnorm fused then
        some (fun i => fused i / vnorm fused * vnorm u)
      else some fused

/-- C3: for a user whose base embedding exists, a fetched sequence
shorter than `minInteractions`, or a sequence none of whose items'
embeddings resolve, makes the dynamic fusion return the base vector
exactly unchanged. -/
theorem fusion_cold_start {D : ℕ} (env : FusionEnv D) (u : Fin D → ℝ)
    (minInteractions : ℕ) (w : ℝ) (maxLen : ℕ) (td : Bool)
    (hu : env.userEmbedding = some u)
    (h : (getUserSequence env maxLen).length < minInteractions ∨
      resolvedItems env (getUserSequence env maxLen) = []) :
    getDynamicUserEmbedding env minInteractions w maxLen td = some u := by
  rw [getDynamicUserEmbedding, hu]
  by_cases hlen : (getUserSequence env maxLen).length < minInteractions
  · simp [hlen]
  · rcases h with h | h
    · exact absurd h hlen
    · simp [hlen, h]

theorem vnorm_nonneg {D : ℕ} (v : Fin D → ℝ) : 0 ≤ vnorm v :=
  Real.sqrt_nonneg _

theorem vnorm_scale {D : ℕ} (v : Fin D → ℝ) (c : ℝ) :
    vnorm (fun i => v i * c) = vnorm v * |c| := by
  unfold vnorm
  have hsum : (∑ i, (v i * c) ^ 2) = (∑ i, v i ^ 2) * c ^ 2 := by
    rw [Finset.sum_mul]
    exact Finset.sum_congr rfl (fun i _ => by ring)
  rw [hsum, Real.sqrt_mul (by positivity), Real.sqrt_sq_eq_abs]

/-- C4: whenever the base vector and the fused combination
`(1-w)*u + w*interactionVec` both have nonzero norm, the vector the
fusion returns has exactly the Euclidean norm of the base vector `u`
(the fused combination is rescaled to `‖u‖`); in the early-return
branches the base vector itself is returned, so the norm is also
preserved. -/
theorem fusion_norm_preservation {D : ℕ} (env : FusionEnv D)
    (u : Fin D → ℝ) (minInteractions : ℕ) (w : ℝ) (maxLen : ℕ) (td : Bool)
    (hu : env.userEmbedding = some u)
    (hnu : vnorm u ≠ 0)
    (hnf : vnorm (fusedVector u
      (interactionVector env (getUserSequence env maxLen) td) w) ≠ 0) :
    (getDynamicUserEmbedding env minInteractions w maxLen td).map vnorm =
      some (vnorm u) := by
  rw [getDynamicUserEmbedding, hu]
  by_cases hlen : (getUserSequence env maxLen).length < minInteractions
  · simp [hlen]
  · by_cases hres : (resolvedItems env (getUserSequence env maxLen)).isEmpty
    · simp [hlen, hres]
    · have hpos : 0 < vnorm (fusedVector u
          (interactionVector env (getUserSequence env maxLen) td) w) :=
        lt_of_le_of_ne (vnorm_nonneg _) (Ne.symm hnf)
      simp only [hlen, hres, ite_false, Bool.false_eq_true, if_pos hpos,
        Option.map_some']
      congr 1
      have hfun : (fun i => fusedVector u
          (interactionVector env (getUserSequence env maxLen) td) w i /
            vnorm (fusedVector u
              (interactionVector env (getUserSequence env maxLen) td) w) *
            vnorm u) =
          (fun i => fusedVector u
            (interactionVector env (getUserSequence env maxLen) td) w i *
            (vnorm u / vnorm (fusedVector u
              (interactionVector env (getUserSequence env maxLen) td) w))) := by
        funext i
        ring
      rw [hfun, vnorm_scale]
      rw [abs_of_nonneg (div_nonneg (vnorm_nonneg u) (le_of_lt hpos))]
      field_simp

/-- Cache state for the C3 witness: base embedding present, empty
interaction sequence. -/
def wEnv3 : FusionEnv 1 := ⟨some (fun _ => 1), [], fun _ => none⟩

theorem fusion_cold_start_witness :
    getDynamicUserEmbedding wEnv3 3 (1/10) 10 true =
      some (fun _ : Fin 1 => (1 : ℝ)) :=
  fusion_cold_start wEnv3 (fun _ => 1) 3 (1/10) 10 true rfl
    (Or.inl (by norm_num [getUserSequence, wEnv3]))

/-- Cache state for the C4 witness: base embedding `[2]`, empty
interaction sequence (the fusion then returns the base vector, whose
norm is trivially preserved; the deep branch is covered by the general
theorem). -/
def wEnv4 : FusionEnv 1 := ⟨some (fun _ => 2), [], fun _ => none⟩

theorem fusion_norm_preservation_witness :
    (getDynamicUserEmbedding wEnv4 3 0 10 false).map vnorm =
      some (vnorm (fun _ : Fin 1 => (2 : ℝ))) :=
  fusion_norm_preservation wEnv4 (fun _ => 2) 3 0 10 false rfl
    (by
      unfold vnorm
      have h4 : (∑ i : Fin 1, ((fun _ : Fin 1 => (2 : ℝ)) i) ^ 2) = 4 := by
        rw [Fin.sum_univ_one]
        norm_num
      rw [h4]
      positivity)
    (by
      have hfun : fusedVector (fun _ : Fin 1 => (2 : ℝ))
          (interactionVector wEnv4 (getUserSequence wEnv4 10) false) 0 =
          fun _ : Fin 1 => 2 := by
        funext i
        norm_num [fusedVector]
      rw [hfun]
      unfold vnorm
      have h4 : (∑ i : Fin 1, ((fun _ : Fin 1 => (2 : ℝ)) i) ^ 2) = 4 := by
        rw [Fin.sum_univ_one]
        norm_num
      rw [h4]
      positivity)
